import Mathlib

/-!
Verification of the dsp_lab streaming spectral engine against its specification.

This file gives a shallow embedding of the relevant parts of the repository:

* `src/core/mod.rs` : `RawRingBuffer`, `SafeRawRingBuffer` (fixed-capacity,
  power-of-two circular buffers over `f64` samples);
* `src/core/dft.rs` : `SlidingDft` (recursive sliding transform), `inverse_dft`
  (stateless frame reducer), and `FftCore` (block overlap-add engine
  configuration and dirty flag);
* `src/utils/math.rs` : `c_add`, `c_sub`, `c_mul`, `i_exp` complex helpers.

Modelling conventions:

* `f64` samples are modelled as real numbers; the `fastapprox` single precision
  sine/cosine used by `i_exp` are modelled as the exact real sine/cosine, and
  the `f64` literals of the overlap table as the exact rationals they denote.
* `usize` arithmetic is modelled on `Nat`; a subtraction that would underflow
  (a panic in the Rust debug build, and an out-of-bounds access after wrapping
  in release builds at the sites modelled here) is modelled as a failure, so
  fallible operations return `Option`.
* A failed `assert!` (a panic) is modelled as `none`.
-/

namespace DspLab

/-- The `RawRingBuffer<CAP>` struct of `src/core/mod.rs`: a backing array of
`CAP` samples (modelled as a list of length `CAP`) and a write cursor. -/
structure RawRingBuffer (CAP : Nat) where
  buffer : List ℝ
  write_ptr : Nat

namespace RawRingBuffer

/-- `RawRingBuffer::new`: asserts that `CAP` is nonzero and a power of two
(checked as `CAP & (CAP - 1) == 0`), zero-fills the storage and starts the
cursor at 0.  The failed assertion (a panic) is modelled as `none`. -/
def new (CAP : Nat) : Option (RawRingBuffer CAP) :=
  if (CAP ≠ 0) ∧ (CAP &&& (CAP - 1) = 0) then
    some ⟨List.replicate CAP 0, 0⟩
  else
    none

/-- `RawRingBuffer::push`: writes at the cursor, then advances the cursor with
the bitwise mask `(write_ptr + 1) & (CAP - 1)`. -/
def push {CAP : Nat} (b : RawRingBuffer CAP) (x : ℝ) : RawRingBuffer CAP :=
  { buffer := b.buffer.set b.write_ptr x
    write_ptr := (b.write_ptr + 1) &&& (CAP - 1) }

/-- `RawRingBuffer::get`: asserts `offs <= CAP`, then reads slot
`(write_ptr - offs - 1) & (CAP - 1)`.  The subtraction is on `usize` and does
not add `CAP` first, so it underflows whenever `offs + 1 > write_ptr`; both the
failed assertion and the underflow are modelled as `none`. -/
def get {CAP : Nat} (b : RawRingBuffer CAP) (offs : Nat) : Option ℝ :=
  if offs ≤ CAP then
    if offs + 1 ≤ b.write_ptr then
      some (b.buffer.getD ((b.write_ptr - offs - 1) &&& (CAP - 1)) 0)
    else
      none
  else
    none

/-- The `Index` impl for `RawRingBuffer`: asserts `offs < CAP`, then reads slot
`(write_ptr + CAP - offs - 1) & (CAP - 1)`.  Adding `CAP` before subtracting
makes the subtraction safe for every `offs < CAP`. -/
def index {CAP : Nat} (b : RawRingBuffer CAP) (offs : Nat) : Option ℝ :=
  if offs < CAP then
    some (b.buffer.getD ((b.write_ptr + CAP - offs - 1) &&& (CAP - 1)) 0)
  else
    none

/-- Pushing a whole list of samples, one `push` per element, oldest first. -/
def pushAll {CAP : Nat} (b : RawRingBuffer CAP) (xs : List ℝ) : RawRingBuffer CAP :=
  xs.foldl push b

/-- Well-formed buffer state: full backing storage and an in-range cursor.
Holds after `new` and is preserved by `push`. -/
def WF {CAP : Nat} (b : RawRingBuffer CAP) : Prop :=
  b.buffer.length = CAP ∧ b.write_ptr < CAP

end RawRingBuffer

/-- The `SafeRawRingBuffer<CAP>` struct of `src/core/mod.rs`: a wrapper around
`RawRingBuffer` with non-panicking construction and lookup. -/
structure SafeRawRingBuffer (CAP : Nat) where
  internal_buffer : RawRingBuffer CAP

namespace SafeRawRingBuffer

/-- `SafeRawRingBuffer::new`: returns `None` when `CAP` is zero or not a power
of two, otherwise wraps `RawRingBuffer::new` (whose assertion then passes). -/
def new (CAP : Nat) : Option (SafeRawRingBuffer CAP) :=
  if (CAP ≠ 0) ∧ (CAP &&& (CAP - 1) = 0) then
    (RawRingBuffer.new CAP).map (fun b => ⟨b⟩)
  else
    none

/-- `SafeRawRingBuffer::push`: delegates to the internal buffer. -/
def push {CAP : Nat} (sb : SafeRawRingBuffer CAP) (x : ℝ) : SafeRawRingBuffer CAP :=
  ⟨sb.internal_buffer.push x⟩

/-- `SafeRawRingBuffer::get`: returns `Some(self.internal_buffer[idx])` when
`idx < CAP` (the subscript's assertion then passes) and `None` otherwise. -/
def get {CAP : Nat} (sb : SafeRawRingBuffer CAP) (idx : Nat) : Option ℝ :=
  if idx < CAP then
    sb.internal_buffer.index idx
  else
    none

end SafeRawRingBuffer

/-! The block overlap-add engine `FftCore` of `src/core/dft.rs`: configuration
(hop computation from the overlap table) and the output dirty flag. -/

/-- The `WindowMode` enum of `src/shared_enums.rs`. -/
inductive WindowMode
  | Box
  | Triangular
  | Welch
  | Hann
  | BlackmanHarris
  | Nuttal
  | Kaiser
  | FlatTop

/-- The `OverlapPolicy` enum of `src/shared_enums.rs`. -/
inductive OverlapPolicy
  | Off
  | Eco
  | Default
  | FlatAmplitude
  | FlatPower

/-- The `FftCore` struct, restricted to the fields read or written by the
modelled operations (`apply_config` and the dirty-flag query).  The sample,
window and frequency buffers and the external `rustfft` engine handles are
omitted: no modelled operation touches them. -/
structure FftCore where
  size : Nat
  frame_gap : Nat
  window_mode : WindowMode
  overlap_policy : OverlapPolicy
  is_updated : Bool

/-- The `OVERLAPS` constant of `src/core/dft.rs`: FFT windowing overlap
ratios, stored row-major with columns (eco, ROV, flat amplitude, flat power)
and rows (boxcar, triangle, welch, hann, blackman-harris, nuttal 3a,
kaiser 3, SFT3F flat-top).  The `f64` literals are modelled as the exact
rationals they denote. -/
def OVERLAPS : List ℚ :=
  [0.0,   0.0,    0.0,    0.0,
   0.5,   0.5,    0.5,    0.8325,
   0.293, 0.293,  0.71,   0.46,
   0.5,   0.5,    0.5,    0.6667,
   0.5,   0.661,  0.74,   0.82,
   0.5,   0.612,  0.65,   0.78,
   0.5,   0.619,  0.69,   0.79,
   0.5,   0.6667, 0.6667, 0.8]

/-- The `col` computed by `FftCore::apply_config`: `-1` (modelled as `none`)
selects the early return, otherwise the table column. -/
def policyCol : OverlapPolicy → Option Nat
  | .Off => none
  | .Eco => some 0
  | .Default => some 1
  | .FlatAmplitude => some 2
  | .FlatPower => some 3

/-- The `row` computed by `FftCore::apply_config`. -/
def windowRow : WindowMode → Nat
  | .Box => 0
  | .Triangular => 1
  | .Welch => 2
  | .Hann => 3
  | .BlackmanHarris => 4
  | .Nuttal => 5
  | .Kaiser => 6
  | .FlatTop => 7

/-- `FftCore::apply_config`: with overlap off the hop equals the size;
otherwise `overlap_size = (OVERLAPS[col + row * 4] * size) as usize` (the cast
truncates the nonnegative product, i.e. takes its floor) and
`frame_gap = size - overlap_size`. -/
def FftCore.apply_config (c : FftCore) : FftCore :=
  match policyCol c.overlap_policy with
  | none => { c with frame_gap := c.size }
  | some col =>
    let row := windowRow c.window_mode
    let overlap_size : Nat := (⌊OVERLAPS.getD (col + row * 4) 0 * (c.size : ℚ)⌋).toNat
    { c with frame_gap := c.size - overlap_size }

/-- `FftCore::is_updated` (the method sharing the flag's name): reports the
dirty flag and clears it as soon as it is observed.  Modelled as an explicit
state transition returning the reported value and the successor state. -/
def FftCore.is_updated_query (c : FftCore) : Bool × FftCore :=
  if c.is_updated then
    (true, { c with is_updated := false })
  else
    (false, c)

/-- The documented overlap-ratio table, written as the two-dimensional
(policy, window shape) table of the code's comment block.  The `Off` policy
carries no table entry; it is documented to disable overlap, i.e. ratio 0. -/
def overlapTable : OverlapPolicy → WindowMode → ℚ
  | .Off, _ => 0
  | .Eco, .Box => 0.0
  | .Eco, .Triangular => 0.5
  | .Eco, .Welch => 0.293
  | .Eco, .Hann => 0.5
  | .Eco, .BlackmanHarris => 0.5
  | .Eco, .Nuttal => 0.5
  | .Eco, .Kaiser => 0.5
  | .Eco, .FlatTop => 0.5
  | .Default, .Box => 0.0
  | .Default, .Triangular => 0.5
  | .Default, .Welch => 0.293
  | .Default, .Hann => 0.5
  | .Default, .BlackmanHarris => 0.661
  | .Default, .Nuttal => 0.612
  | .Default, .Kaiser => 0.619
  | .Default, .FlatTop => 0.6667
  | .FlatAmplitude, .Box => 0.0
  | .FlatAmplitude, .Triangular => 0.5
  | .FlatAmplitude, .Welch => 0.71
  | .FlatAmplitude, .Hann => 0.5
  | .FlatAmplitude, .BlackmanHarris => 0.74
  | .FlatAmplitude, .Nuttal => 0.65
  | .FlatAmplitude, .Kaiser => 0.69
  | .FlatAmplitude, .FlatTop => 0.6667
  | .FlatPower, .Box => 0.0
  | .FlatPower, .Triangular => 0.8325
  | .FlatPower, .Welch => 0.46
  | .FlatPower, .Hann => 0.6667
  | .FlatPower, .BlackmanHarris => 0.82
  | .FlatPower, .Nuttal => 0.78
  | .FlatPower, .Kaiser => 0.79
  | .FlatPower, .FlatTop => 0.8

/-! The sliding transform `SlidingDft` of `src/core/dft.rs` and its complex
arithmetic helpers from `src/utils/math.rs`. -/

/-- `c_add` of `src/utils/math.rs`: componentwise complex addition on
`(f64, f64)` pairs. -/
noncomputable def c_add (a b : ℝ × ℝ) : ℝ × ℝ := (a.1 + b.1, a.2 + b.2)

/-- `c_sub` of `src/utils/math.rs`: componentwise complex subtraction. -/
noncomputable def c_sub (a b : ℝ × ℝ) : ℝ × ℝ := (a.1 - b.1, a.2 - b.2)

/-- `c_mul` of `src/utils/math.rs`: complex multiplication on pairs. -/
noncomputable def c_mul (a b : ℝ × ℝ) : ℝ × ℝ :=
  (a.1 * b.1 - a.2 * b.2, a.1 * b.2 + a.2 * b.1)

/-- `i_exp` of `src/utils/math.rs`: `(cosfull(x), sinfull(x))`, the point
`e^(ix)` on the unit circle.  The `fastapprox` single-precision
`cosfull`/`sinfull` approximations are modelled as the exact real cosine and
sine. -/
noncomputable def i_exp (x : ℝ) : ℝ × ℝ := (Real.cos x, Real.sin x)

/-- `std::f64::consts::TAU`, the full turn `2π`. -/
noncomputable def consts_TAU : ℝ := 2 * Real.pi

/-- Modelled from the spec: `RawRingBufferNoAlloc`, the history buffer type
used by `SlidingDft` (`src/core/dft.rs` imports it from `crate::core`), is
not present under src/.  Per the spec's RingBuffer contract it is a
fixed-capacity power-of-two circular buffer with a write cursor, where `push`
writes at the cursor and advances it with a bitwise mask, and reading age
`i` maps to storage slot `(w - 1 - i) mod C` - the same addressing as the
`RawRingBuffer` subscript operator. -/
structure RawRingBufferNoAlloc (CAP : Nat) where
  buffer : List ℝ
  write_ptr : Nat

namespace RawRingBufferNoAlloc

/-- Modelled from the spec: construction of the zero-filled history buffer. -/
def new (CAP : Nat) : RawRingBufferNoAlloc CAP :=
  ⟨List.replicate CAP 0, 0⟩

/-- Modelled from the spec: write at the cursor, advance with the mask. -/
def push {CAP : Nat} (b : RawRingBufferNoAlloc CAP) (x : ℝ) :
    RawRingBufferNoAlloc CAP :=
  { buffer := b.buffer.set b.write_ptr x
    write_ptr := (b.write_ptr + 1) &&& (CAP - 1) }

/-- Modelled from the spec: lookup by age; age `offs` maps to storage slot
`(w - 1 - offs) mod C`, failing (`none`) when `offs ≥ C`. -/
def index {CAP : Nat} (b : RawRingBufferNoAlloc CAP) (offs : Nat) : Option ℝ :=
  if offs < CAP then
    some (b.buffer.getD ((b.write_ptr + CAP - offs - 1) &&& (CAP - 1)) 0)
  else
    none

end RawRingBufferNoAlloc

/-- The `SlidingDft` struct of `src/core/dft.rs`: configured window length,
a 2048-deep sample history, and 2048 complex bin accumulators (an array in
the source, modelled as a function on `Fin 2048`). -/
structure SlidingDft where
  size : Nat
  input_buf : RawRingBufferNoAlloc 2048
  frame_buf : Fin 2048 → ℝ × ℝ

/-- `SlidingDft::new`: size 256, empty history, zeroed accumulators. -/
def SlidingDft.new : SlidingDft :=
  ⟨256, RawRingBufferNoAlloc.new 2048, fun _ => (0, 0)⟩

/-- `SlidingDft::set_size`: asserts `size <= 2048` (the failed assertion is
modelled as `none`), then stores the new size. -/
def SlidingDft.set_size (s : SlidingDft) (n : Nat) : Option SlidingDft :=
  if n ≤ 2048 then
    some { s with size := n }
  else
    none

/-- The bin-update loop body of `SlidingDft::step`: `for f in 0..size`
replaces `frame_buf[f]` with `c_mul(c_add(frame_buf[f], diff), i_exp(TAU * f
/ size))` and leaves every bin at or above `size` untouched.  Each iteration
writes only bin `f` and reads only bin `f` and `diff`, so the loop is this
pointwise update. -/
noncomputable def stepFrame (s : SlidingDft) (diff : ℝ × ℝ) : Fin 2048 → ℝ × ℝ :=
  fun f =>
    if (f : Nat) < s.size then
      c_mul (c_add (s.frame_buf f) diff)
        (i_exp (consts_TAU * (f : ℝ) / (s.size : ℝ)))
    else
      s.frame_buf f

/-- `SlidingDft::step`: computes
`diff = (input - input_buf[size - 1], 0.0)` from the history *before* the
push, pushes `input`, then runs `for f in 0..size` updating
`frame_buf[f] = c_mul(c_add(frame_buf[f], diff), i_exp(TAU * f / size))`,
and returns (a snapshot of) the whole 2048-entry accumulator array.

Each loop iteration writes only bin `f` and reads only bin `f` and `diff`,
so the loop is the pointwise update written below.  The push is moved after
the bin update, which is equivalent because the loop never reads the
history.  With `size = 0` the `usize` expression `size - 1` underflows
(`none` here); the history lookup itself fails for `size - 1 ≥ 2048`,
matching the panic of the out-of-bounds subscript. -/
noncomputable def SlidingDft.step (s : SlidingDft) (input : ℝ) :
    Option (List (ℝ × ℝ) × SlidingDft) :=
  if 1 ≤ s.size then
    (s.input_buf.index (s.size - 1)).map (fun oldest =>
      let diff : ℝ × ℝ := (input - oldest, 0)
      ((List.finRange 2048).map (stepFrame s diff),
        { size := s.size
          input_buf := s.input_buf.push input
          frame_buf := stepFrame s diff }))
  else
    none

/-- The even-position subsequence of a list: Rust's `iter().step_by(2)`. -/
def stepBy2 {α : Type} : List α → List α
  | [] => []
  | [x] => [x]
  | x :: _ :: rest => x :: stepBy2 rest

/-- `inverse_dft` of `src/core/dft.rs`: starting from a zero accumulator,
`c_add` every frame entry visited by `step_by(2)`, then `c_sub` every entry
visited by `skip(1).step_by(2)`, and divide the real part by the frame
length. -/
noncomputable def inverse_dft (frame : List (ℝ × ℝ)) : ℝ :=
  let accum1 := (stepBy2 frame).foldl c_add (0, 0)
  let accum2 := (stepBy2 (frame.drop 1)).foldl c_sub accum1
  accum2.1 / (frame.length : ℝ)

/-- The spec's reading of `inverse_dft`: the sum of the bins at even
indices (componentwise, as complex values). -/
noncomputable def evenBinSum (frame : List (ℝ × ℝ)) : ℝ × ℝ :=
  ∑ i ∈ Finset.range frame.length, if i % 2 = 0 then frame.getD i (0, 0) else 0

/-- The spec's reading of `inverse_dft`: the sum of the bins at odd
indices. -/
noncomputable def oddBinSum (frame : List (ℝ × ℝ)) : ℝ × ℝ :=
  ∑ i ∈ Finset.range frame.length, if i % 2 = 1 then frame.getD i (0, 0) else 0

/-- The complex number denoted by an `(f64, f64)` pair. -/
def toC (p : ℝ × ℝ) : ℂ := ⟨p.1, p.2⟩

/-! Arithmetic facts about the power-of-two check `cap & (cap - 1) == 0`. -/

lemma two_pow_and_sub_one (j : Nat) : (2 ^ j) &&& (2 ^ j - 1) = 0 := by
  rw [Nat.and_pow_two_sub_one_eq_mod]
  exact Nat.mod_self _

lemma and_sub_one_eq_zero_iff_pow (cap : Nat) (h0 : cap ≠ 0) :
    cap &&& (cap - 1) = 0 ↔ ∃ j, cap = 2 ^ j := by
  constructor
  · intro h
    induction cap using Nat.strong_induction_on with
    | _ cap IH =>
      rcases Nat.even_or_odd cap with ⟨c, hc⟩ | ⟨c, hc⟩
      · -- even case: cap = 2 * c with c ≠ 0; the low halves inherit the property
        have hc2 : cap = 2 * c := by omega
        have hcne : c ≠ 0 := by omega
        have hdiv : cap / 2 = c := by omega
        have hdiv1 : (cap - 1) / 2 = c - 1 := by omega
        have hbits : c &&& (c - 1) = 0 := by
          apply Nat.eq_of_testBit_eq
          intro i
          rw [Nat.zero_testBit, Nat.testBit_and]
          have h1 : c.testBit i = cap.testBit (i + 1) := by
            rw [Nat.testBit_add_one, hdiv]
          have h2 : (c - 1).testBit i = (cap - 1).testBit (i + 1) := by
            rw [Nat.testBit_add_one, hdiv1]
          rw [h1, h2, ← Nat.testBit_and, h, Nat.zero_testBit]
        obtain ⟨j, hj⟩ := IH c (by omega) hcne hbits
        exact ⟨j + 1, by rw [hc2, hj, pow_succ, Nat.mul_comm]⟩
      · -- odd case: cap = 2 * c + 1 forces c = 0, because any set bit of c
        -- would survive in both cap and cap - 1
        have hc2 : cap = 2 * c + 1 := by omega
        by_cases hcz : c = 0
        · exact ⟨0, by omega⟩
        · obtain ⟨i, hi⟩ := Nat.ne_zero_implies_bit_true hcz
          exfalso
          have hdiv : cap / 2 = c := by omega
          have hdiv1 : (cap - 1) / 2 = c := by omega
          have : (cap &&& (cap - 1)).testBit (i + 1) = true := by
            rw [Nat.testBit_and, Nat.testBit_add_one, Nat.testBit_add_one,
              hdiv, hdiv1, hi]
            rfl
          rw [h, Nat.zero_testBit] at this
          exact Bool.false_ne_true this
  · rintro ⟨j, rfl⟩
    exact two_pow_and_sub_one j

/-! Ring addressing lemmas for power-of-two capacities. -/

namespace RawRingBuffer

lemma and_mask_eq_mod (n x : Nat) : x &&& (2 ^ n - 1) = x % 2 ^ n :=
  Nat.and_pow_two_sub_one_eq_mod x n

lemma new_eq_some (n : Nat) :
    new (2 ^ n) = some ⟨List.replicate (2 ^ n) 0, 0⟩ := by
  rw [new, if_pos]
  exact ⟨(Nat.two_pow_pos n).ne', two_pow_and_sub_one n⟩

lemma wf_new {n : Nat} {b : RawRingBuffer (2 ^ n)} (h : new (2 ^ n) = some b) :
    WF b := by
  rw [new_eq_some] at h
  cases h
  exact ⟨List.length_replicate .., Nat.two_pow_pos n⟩

lemma wf_push {n : Nat} {b : RawRingBuffer (2 ^ n)} (h : WF b) (x : ℝ) :
    WF (b.push x) := by
  obtain ⟨hlen, _⟩ := h
  refine ⟨by simpa [push] using hlen, ?_⟩
  show (b.write_ptr + 1) &&& (2 ^ n - 1) < 2 ^ n
  rw [and_mask_eq_mod]
  exact Nat.mod_lt _ (Nat.two_pow_pos n)

lemma wf_pushAll {n : Nat} {b : RawRingBuffer (2 ^ n)} (h : WF b) (xs : List ℝ) :
    WF (b.pushAll xs) := by
  induction xs generalizing b with
  | nil => exact h
  | cons x xs IH => exact IH (wf_push h x)

lemma push_write_ptr {n : Nat} (b : RawRingBuffer (2 ^ n)) (x : ℝ) :
    (b.push x).write_ptr = (b.write_ptr + 1) % 2 ^ n :=
  and_mask_eq_mod n (b.write_ptr + 1)

lemma push_buffer {CAP : Nat} (b : RawRingBuffer CAP) (x : ℝ) :
    (b.push x).buffer = b.buffer.set b.write_ptr x := rfl

/-- After a push, age 0 reads back the value just pushed. -/
lemma index_push_newest {n : Nat} {b : RawRingBuffer (2 ^ n)} (h : WF b) (x : ℝ) :
    (b.push x).index 0 = some x := by
  obtain ⟨hlen, hw⟩ := h
  have hpos : 0 < 2 ^ n := Nat.two_pow_pos n
  rw [index, if_pos hpos, push_write_ptr, push_buffer, and_mask_eq_mod]
  have hslot : ((b.write_ptr + 1) % 2 ^ n + 2 ^ n - 0 - 1) % 2 ^ n
      = b.write_ptr := by
    have h1 : (b.write_ptr + 1) % 2 ^ n + 2 ^ n - 0 - 1
        = (b.write_ptr + 1) % 2 ^ n + (2 ^ n - 1) := by omega
    rw [h1, Nat.mod_add_mod]
    have h2 : b.write_ptr + 1 + (2 ^ n - 1) = b.write_ptr + 2 ^ n := by omega
    rw [h2, Nat.add_mod_right]
    exact Nat.mod_eq_of_lt hw
  rw [hslot, List.getD_eq_getElem?_getD,
    List.getElem?_set_eq_of_lt x (by rw [hlen]; exact hw)]
  rfl

/-- After a push, age `i + 1` reads what age `i` read before the push. -/
lemma index_push_older {n : Nat} {b : RawRingBuffer (2 ^ n)} (h : WF b) (x : ℝ)
    (i : Nat) (hi : i + 1 < 2 ^ n) :
    (b.push x).index (i + 1) = b.index i := by
  obtain ⟨hlen, hw⟩ := h
  rw [index, index, if_pos hi, if_pos (by omega : i < 2 ^ n),
    push_write_ptr, push_buffer, and_mask_eq_mod, and_mask_eq_mod]
  have hslot : ((b.write_ptr + 1) % 2 ^ n + 2 ^ n - (i + 1) - 1) % 2 ^ n
      = (b.write_ptr + 2 ^ n - i - 1) % 2 ^ n := by
    have h1 : (b.write_ptr + 1) % 2 ^ n + 2 ^ n - (i + 1) - 1
        = (b.write_ptr + 1) % 2 ^ n + (2 ^ n - i - 2) := by omega
    rw [h1, Nat.mod_add_mod]
    congr 1
    omega
  rw [hslot]
  have hne : (b.write_ptr + 2 ^ n - i - 1) % 2 ^ n ≠ b.write_ptr := by
    have hd : b.write_ptr + 2 ^ n - i - 1 = b.write_ptr + (2 ^ n - i - 1) := by
      omega
    intro hcontra
    rw [hd] at hcontra
    rcases Nat.lt_or_ge (b.write_ptr + (2 ^ n - i - 1)) (2 ^ n) with hlt | hge
    · rw [Nat.mod_eq_of_lt hlt] at hcontra
      omega
    · rw [Nat.mod_eq_sub_mod hge, Nat.mod_eq_of_lt (by omega)] at hcontra
      omega
  rw [List.getD_eq_getElem?_getD, List.getD_eq_getElem?_getD,
    List.getElem?_set_ne hne.symm]

/-- Addressing after a bulk push: age `i` reads the `i`-th most recent element
of the pushed list, as long as the list is long enough to have filled it. -/
lemma index_pushAll {n : Nat} (xs : List ℝ) :
    ∀ (b : RawRingBuffer (2 ^ n)), WF b → ∀ i, i < 2 ^ n → i < xs.length →
      (b.pushAll xs).index i = some (xs.getD (xs.length - 1 - i) 0) := by
  induction xs using List.reverseRecOn with
  | nil => intro b _ i _ hi; simp at hi
  | append_singleton xs x IH =>
    intro b hwf i hicap hi
    have hsplit : b.pushAll (xs ++ [x]) = (b.pushAll xs).push x := by
      rw [pushAll, pushAll, List.foldl_append]
      rfl
    have hwf2 : WF (b.pushAll xs) := wf_pushAll hwf xs
    rcases i with _ | j
    · rw [hsplit, index_push_newest hwf2]
      have hlen : (xs ++ [x]).length - 1 - 0 = xs.length := by
        simp
      rw [hlen, List.getD_eq_getElem?_getD, List.getElem?_concat_length]
      rfl
    · have hj : j < xs.length := by
        have := hi
        simp at this
        omega
      rw [hsplit, index_push_older hwf2 x j hicap,
        IH b hwf j (by omega) hj]
      have hidx : (xs ++ [x]).length - 1 - (j + 1) = xs.length - 1 - j := by
        simp; omega
      have hlt : xs.length - 1 - j < xs.length := by omega
      rw [hidx, List.getD_eq_getElem?_getD, List.getD_eq_getElem?_getD,
        List.getElem?_append_left hlt]

end RawRingBuffer

lemma new_isSome_iff (cap : Nat) :
    (RawRingBuffer.new cap).isSome ↔ ((cap ≠ 0) ∧ (cap &&& (cap - 1) = 0)) := by
  by_cases hc : (cap ≠ 0) ∧ (cap &&& (cap - 1) = 0) <;>
    simp [RawRingBuffer.new, hc]

lemma safe_new_isSome_iff (cap : Nat) :
    (SafeRawRingBuffer.new cap).isSome ↔ ((cap ≠ 0) ∧ (cap &&& (cap - 1) = 0)) := by
  by_cases hc : (cap ≠ 0) ∧ (cap &&& (cap - 1) = 0) <;>
    simp [SafeRawRingBuffer.new, RawRingBuffer.new, hc]

/-- Claim C4: for every power-of-two capacity `C = 2 ^ n` and every `k ≥ 0`,
after pushing `C + k` values into a fresh `RawRingBuffer`, age 0 reads the most
recently pushed value, age `C - 1` reads the oldest resident value (the
`(k+1)`-th pushed one), and in general age `i` maps to storage slot
`(w - 1 - i) mod C` where `w` is the cursor after the pushes. -/
theorem claim_C4_ring_addressing (n k : Nat) (xs : List ℝ) (b0 : RawRingBuffer (2 ^ n))
    (hnew : RawRingBuffer.new (2 ^ n) = some b0)
    (hlen : xs.length = 2 ^ n + k) :
    (b0.pushAll xs).index 0 = some (xs.getD (2 ^ n + k - 1) 0) ∧
    (b0.pushAll xs).index (2 ^ n - 1) = some (xs.getD k 0) ∧
    ∀ i, i < 2 ^ n →
      (b0.pushAll xs).index i
        = some ((b0.pushAll xs).buffer.getD
            (((b0.pushAll xs).write_ptr + 2 ^ n - 1 - i) % 2 ^ n) 0) := by
  have hpos : 0 < 2 ^ n := Nat.two_pow_pos n
  have hwf : RawRingBuffer.WF b0 := RawRingBuffer.wf_new hnew
  refine ⟨?_, ?_, ?_⟩
  · rw [RawRingBuffer.index_pushAll xs b0 hwf 0 hpos (by omega)]
    have : xs.length - 1 - 0 = 2 ^ n + k - 1 := by omega
    rw [this]
  · rw [RawRingBuffer.index_pushAll xs b0 hwf (2 ^ n - 1) (by omega) (by omega)]
    have : xs.length - 1 - (2 ^ n - 1) = k := by omega
    rw [this]
  · intro i hi
    rw [RawRingBuffer.index, if_pos hi, RawRingBuffer.and_mask_eq_mod]
    have : (b0.pushAll xs).write_ptr + 2 ^ n - i - 1
        = (b0.pushAll xs).write_ptr + 2 ^ n - 1 - i := by omega
    rw [this]

theorem claim_C4_ring_addressing_witness :
    (RawRingBuffer.pushAll (⟨List.replicate 4 0, 0⟩ : RawRingBuffer (2 ^ 2))
        [1, 2, 3, 4, 5]).index 0
      = some (([1, 2, 3, 4, 5] : List ℝ).getD (2 ^ 2 + 1 - 1) 0) ∧
    (RawRingBuffer.pushAll (⟨List.replicate 4 0, 0⟩ : RawRingBuffer (2 ^ 2))
        [1, 2, 3, 4, 5]).index (2 ^ 2 - 1)
      = some (([1, 2, 3, 4, 5] : List ℝ).getD 1 0) := by
  have h := claim_C4_ring_addressing 2 1 [1, 2, 3, 4, 5]
    ⟨List.replicate 4 0, 0⟩ rfl rfl
  exact ⟨h.1, h.2.1⟩

/-- Claim C5: historical lookup at any age `≥ C` is a fatal precondition
violation in both unchecked variants (`get` and the subscript), while the
checked `SafeRawRingBuffer::get` returns `None` for every age `≥ C` and
`Some` of a stored sample for every age `< C`. -/
theorem claim_C5_lookup_age_bound (CAP : Nat) (b : RawRingBuffer CAP)
    (hw : b.write_ptr < CAP) (sb : SafeRawRingBuffer CAP) (age : Nat) :
    (CAP ≤ age → b.get age = none ∧ b.index age = none ∧ sb.get age = none) ∧
    (age < CAP → ∃ v, sb.get age = some v) := by
  constructor
  · intro hage
    refine ⟨?_, ?_, ?_⟩
    · rw [RawRingBuffer.get]
      rcases Nat.lt_or_ge CAP age with hgt | hle2
      · rw [if_neg (by omega)]
      · -- age = CAP: the assertion passes but the cursor subtraction underflows
        rw [if_pos (by omega), if_neg (by omega)]
    · rw [RawRingBuffer.index, if_neg (by omega)]
    · rw [SafeRawRingBuffer.get, if_neg (by omega)]
  · intro hage
    rw [SafeRawRingBuffer.get, if_pos hage, RawRingBuffer.index, if_pos hage]
    exact ⟨_, rfl⟩

theorem claim_C5_lookup_age_bound_witness :
    ((⟨List.replicate 4 0, 2⟩ : RawRingBuffer 4).get 5 = none ∧
     (⟨List.replicate 4 0, 2⟩ : RawRingBuffer 4).index 5 = none ∧
     (⟨⟨List.replicate 4 0, 2⟩⟩ : SafeRawRingBuffer 4).get 5 = none) ∧
    (∃ v, (⟨⟨List.replicate 4 0, 2⟩⟩ : SafeRawRingBuffer 4).get 2 = some v) :=
  ⟨(claim_C5_lookup_age_bound 4 ⟨List.replicate 4 0, 2⟩ (by decide)
      ⟨⟨List.replicate 4 0, 2⟩⟩ 5).1 (by decide),
   (claim_C5_lookup_age_bound 4 ⟨List.replicate 4 0, 2⟩ (by decide)
      ⟨⟨List.replicate 4 0, 2⟩⟩ 2).2 (by decide)⟩

/-- Claim C6: ring-buffer construction fails if and only if the requested
capacity is zero or not a power of two — fatally for `RawRingBuffer::new`,
with `None` for `SafeRawRingBuffer::new`; capacities 0, 5, 6 fail while
4, 8, 16 succeed. -/
theorem claim_C6_construction_pow_two (cap : Nat) :
    ((RawRingBuffer.new cap).isSome ↔ ∃ j, cap = 2 ^ j) ∧
    ((SafeRawRingBuffer.new cap).isSome ↔ ∃ j, cap = 2 ^ j) ∧
    RawRingBuffer.new 0 = none ∧ RawRingBuffer.new 5 = none ∧
    RawRingBuffer.new 6 = none ∧
    (RawRingBuffer.new 4).isSome = true ∧ (RawRingBuffer.new 8).isSome = true ∧
    (RawRingBuffer.new 16).isSome = true ∧
    SafeRawRingBuffer.new 0 = none ∧ SafeRawRingBuffer.new 5 = none ∧
    SafeRawRingBuffer.new 6 = none ∧
    (SafeRawRingBuffer.new 4).isSome = true ∧
    (SafeRawRingBuffer.new 8).isSome = true ∧
    (SafeRawRingBuffer.new 16).isSome = true := by
  have hiff : ((cap ≠ 0) ∧ (cap &&& (cap - 1) = 0)) ↔ ∃ j, cap = 2 ^ j := by
    constructor
    · rintro ⟨h0, h⟩
      exact (and_sub_one_eq_zero_iff_pow cap h0).mp h
    · rintro ⟨j, rfl⟩
      exact ⟨(Nat.two_pow_pos j).ne', two_pow_and_sub_one j⟩
  refine ⟨(new_isSome_iff cap).trans hiff, (safe_new_isSome_iff cap).trans hiff,
    rfl, rfl, rfl, rfl, rfl, rfl, rfl, rfl, rfl, rfl, rfl, rfl⟩

/-- Claim C7: `RawRingBuffer::get` computes the slot as `write_ptr - offs - 1`
on an unsigned integer without adding `CAP` first, so whenever
`offs + 1 > write_ptr` the subtraction underflows and the call fails even
though `offs < CAP` meets the documented precondition; the subscript operator
adds `CAP` before subtracting and is total for every `offs < CAP`. -/
theorem claim_C7_get_underflow (CAP : Nat) (b : RawRingBuffer CAP) (offs : Nat)
    (hoffs : offs < CAP) :
    (b.write_ptr < offs + 1 → b.get offs = none) ∧
    (∃ v, b.index offs = some v) := by
  constructor
  · intro hu
    rw [RawRingBuffer.get, if_pos (by omega), if_neg (by omega)]
  · rw [RawRingBuffer.index, if_pos hoffs]
    exact ⟨_, rfl⟩

theorem claim_C7_get_underflow_witness :
    ((⟨List.replicate 8 0, 0⟩ : RawRingBuffer 8).get 0 = none) ∧
    (∃ v, (⟨List.replicate 8 0, 0⟩ : RawRingBuffer 8).index 0 = some v) :=
  ⟨(claim_C7_get_underflow 8 ⟨List.replicate 8 0, 0⟩ 0 (by decide)).1 (by decide),
   (claim_C7_get_underflow 8 ⟨List.replicate 8 0, 0⟩ 0 (by decide)).2⟩

/-- Claim C2: for every (policy, window shape) pair and every size `N`,
`apply_config` sets the hop to `H = N - floor(ratio * N)` with `ratio` the
documented table entry; the `Off` policy yields `H = N` for every window
shape, and the Hann window under the `Default` policy (ratio 0.5) at
`N = 256` yields `H = 128`. -/
theorem claim_C2_apply_config_hop (c : FftCore) :
    (c.apply_config).frame_gap
      = c.size - (⌊overlapTable c.overlap_policy c.window_mode * (c.size : ℚ)⌋).toNat ∧
    (c.overlap_policy = OverlapPolicy.Off → (c.apply_config).frame_gap = c.size) ∧
    (c.overlap_policy = OverlapPolicy.Default → c.window_mode = WindowMode.Hann →
      c.size = 256 → (c.apply_config).frame_gap = 128) := by
  obtain ⟨size, frame_gap, win, pol, upd⟩ := c
  refine ⟨?_, ?_, ?_⟩
  · cases pol <;> cases win <;>
      simp [FftCore.apply_config, policyCol, windowRow, OVERLAPS, overlapTable]
  · intro hpol
    subst hpol
    simp [FftCore.apply_config, policyCol]
  · intro hpol hwin hsize
    subst hpol
    subst hwin
    subst hsize
    simp [FftCore.apply_config, policyCol, windowRow, OVERLAPS]
    norm_num
    decide

theorem claim_C2_apply_config_hop_witness :
    (FftCore.apply_config
        ⟨256, 0, WindowMode.Hann, OverlapPolicy.Default, false⟩).frame_gap = 128 :=
  (claim_C2_apply_config_hop
      ⟨256, 0, WindowMode.Hann, OverlapPolicy.Default, false⟩).2.2 rfl rfl rfl

/-- Claim C8: the dirty-flag query returns the current flag (true exactly when
the output buffer was written since the previous query), clears the flag, and
therefore a second consecutive query with no intervening write returns
false. -/
theorem claim_C8_dirty_flag (c : FftCore) :
    (c.is_updated_query).1 = c.is_updated ∧
    (c.is_updated_query).2.is_updated = false ∧
    ((c.is_updated_query).2.is_updated_query).1 = false := by
  by_cases h : c.is_updated <;>
    simp [FftCore.is_updated_query, h]

/-! Bridging lemmas between the `(f64, f64)` pair arithmetic and `ℂ`. -/

lemma toC_c_add (a b : ℝ × ℝ) : toC (c_add a b) = toC a + toC b := by
  apply Complex.ext <;> simp [toC, c_add]

lemma toC_c_mul (a b : ℝ × ℝ) : toC (c_mul a b) = toC a * toC b := by
  apply Complex.ext <;> simp [toC, c_mul, Complex.mul_re, Complex.mul_im]

lemma toC_i_exp (x : ℝ) : toC (i_exp x) = Complex.exp (x * Complex.I) := by
  apply Complex.ext <;>
    simp [toC, i_exp, Complex.exp_ofReal_mul_I_re, Complex.exp_ofReal_mul_I_im]

/-! The successful-step equation for `SlidingDft::step`. -/

lemma sliding_index_some (s : SlidingDft) (h1 : 1 ≤ s.size) (h2 : s.size ≤ 2048) :
    s.input_buf.index (s.size - 1)
      = some (s.input_buf.buffer.getD
          ((s.input_buf.write_ptr + 2048 - (s.size - 1) - 1) &&& (2048 - 1)) 0) := by
  rw [RawRingBufferNoAlloc.index, if_pos (by omega : s.size - 1 < 2048)]

lemma step_eq_some (s : SlidingDft) (x : ℝ) (h1 : 1 ≤ s.size) (h2 : s.size ≤ 2048) :
    ∃ old : ℝ, s.input_buf.index (s.size - 1) = some old ∧
      s.step x = some ((List.finRange 2048).map (stepFrame s (x - old, 0)),
        { size := s.size
          input_buf := s.input_buf.push x
          frame_buf := stepFrame s (x - old, 0) }) := by
  refine ⟨_, sliding_index_some s h1 h2, ?_⟩
  rw [SlidingDft.step, if_pos h1, sliding_index_some s h1 h2, Option.map_some']

/-- Claim C1: on each incoming sample `x`, with window length `N ≥ 1` (the
bin rotation divides by `N`), `step` first reads the sample `N - 1` steps old
from the pre-push history and forms `diff = x - history[N-1]` with zero
imaginary part, then pushes `x`, then replaces every bin `k < N` by
`(accum[k] + diff) * exp(i * 2π * k / N)`, and the returned frame holds
exactly the updated accumulators. -/
theorem claim_C1_sliding_step (s : SlidingDft) (x : ℝ)
    (h1 : 1 ≤ s.size) (h2 : s.size ≤ 2048) :
    ∃ old : ℝ, s.input_buf.index (s.size - 1) = some old ∧
    ∃ frame s2, s.step x = some (frame, s2) ∧
      s2.input_buf = s.input_buf.push x ∧
      s2.size = s.size ∧
      (∀ k : Fin 2048, (k : Nat) < s.size →
        toC (s2.frame_buf k)
          = (toC (s.frame_buf k) + toC (x - old, 0)) *
              Complex.exp ((2 * Real.pi * ((k : Nat) : ℝ) / (s.size : ℝ)) *
                Complex.I)) ∧
      frame = (List.finRange 2048).map s2.frame_buf := by
  obtain ⟨old, hidx, hstep⟩ := step_eq_some s x h1 h2
  refine ⟨old, hidx, _, _, hstep, rfl, rfl, ?_, rfl⟩
  intro k hk
  show toC (stepFrame s (x - old, 0) k) = _
  rw [stepFrame]
  simp only [if_pos hk]
  rw [toC_c_mul, toC_c_add, toC_i_exp]
  congr 2
  push_cast [consts_TAU]
  ring

theorem claim_C1_sliding_step_witness :
    ∃ old : ℝ,
      SlidingDft.new.input_buf.index (SlidingDft.new.size - 1) = some old ∧
    ∃ frame s2, SlidingDft.new.step 1 = some (frame, s2) ∧
      s2.input_buf = SlidingDft.new.input_buf.push 1 ∧
      s2.size = SlidingDft.new.size ∧
      (∀ k : Fin 2048, (k : Nat) < SlidingDft.new.size →
        toC (s2.frame_buf k)
          = (toC (SlidingDft.new.frame_buf k) + toC (1 - old, 0)) *
              Complex.exp ((2 * Real.pi * ((k : Nat) : ℝ) /
                  (SlidingDft.new.size : ℝ)) * Complex.I)) ∧
      frame = (List.finRange 2048).map s2.frame_buf :=
  claim_C1_sliding_step SlidingDft.new 1 (by decide) (by decide)

/-- Claim C9: `set_size(n)` fails exactly when `n` exceeds the backing
history buffer's capacity 2048, and for `n ≤ 2048` it stores `n` as the
configured window length. -/
theorem claim_C9_set_size_bound (s : SlidingDft) (n : Nat) :
    ((s.set_size n).isSome ↔ n ≤ 2048) ∧
    (n ≤ 2048 → s.set_size n = some { s with size := n }) ∧
    (2048 < n → s.set_size n = none) := by
  refine ⟨?_, ?_, ?_⟩
  · by_cases h : n ≤ 2048 <;> simp [SlidingDft.set_size, h]
  · intro h
    rw [SlidingDft.set_size, if_pos h]
  · intro h
    rw [SlidingDft.set_size, if_neg (by omega)]

theorem claim_C9_set_size_bound_witness :
    SlidingDft.new.set_size 1024 = some { SlidingDft.new with size := 1024 } ∧
    SlidingDft.new.set_size 4096 = none :=
  ⟨(claim_C9_set_size_bound SlidingDft.new 1024).2.1 (by decide),
   (claim_C9_set_size_bound SlidingDft.new 4096).2.2 (by decide)⟩

/-- Counterexample to claim C10 as stated: the claim quantifies over every
configured window length `N ≤ 2048`, but at `N = 0` (accepted by
`set_size`) the `usize` expression `size - 1` in `step` underflows, so
`step` panics and returns no 2048-entry slice at all. -/
theorem claim_C10_counterexample :
    (SlidingDft.new.set_size 0).bind (fun s => s.step 1) = none := rfl

/-- Claim C10 (amended: the window length must also be at least 1; as stated
the claim fails at `N = 0`, where `step` panics on the underflow of
`size - 1` instead of returning a slice — see the counterexample): for every
state with `1 ≤ N ≤ 2048` and every input, `step` succeeds, the returned
slice has length 2048 regardless of `N`, every bin with index `k ≥ N` keeps
its value, and a fresh `SlidingDft` has default size 256 with all bins
zero. -/
theorem claim_C10_frame_bins (s : SlidingDft) (x : ℝ)
    (h1 : 1 ≤ s.size) (h2 : s.size ≤ 2048) :
    (s.step x).isSome = true ∧
    (s.step x).map (fun p => p.1.length) = some 2048 ∧
    (∀ k : Fin 2048, s.size ≤ (k : Nat) →
      (s.step x).map (fun p => p.2.frame_buf k) = some (s.frame_buf k)) ∧
    SlidingDft.new.size = 256 ∧
    (∀ k : Fin 2048, SlidingDft.new.frame_buf k = (0, 0)) := by
  obtain ⟨old, hidx, hstep⟩ := step_eq_some s x h1 h2
  refine ⟨by rw [hstep]; rfl, ?_, ?_, rfl, fun k => rfl⟩
  · rw [hstep, Option.map_some']
    simp
  · intro k hk
    rw [hstep, Option.map_some']
    show some (stepFrame s (x - old, 0) k) = _
    rw [stepFrame]
    simp only [if_neg (by omega : ¬ ((k : Nat) < s.size))]

/-! Lemmas for the `inverse_dft` reducer. -/

lemma c_add_eq_add (a b : ℝ × ℝ) : c_add a b = a + b := rfl

lemma c_sub_eq_sub (a b : ℝ × ℝ) : c_sub a b = a - b := rfl

lemma foldl_c_add (l : List (ℝ × ℝ)) (a : ℝ × ℝ) :
    l.foldl c_add a = a + l.sum := by
  induction l generalizing a with
  | nil => simp
  | cons y ys IH => rw [List.foldl_cons, IH, c_add_eq_add, List.sum_cons, add_assoc]

lemma foldl_c_sub (l : List (ℝ × ℝ)) (a : ℝ × ℝ) :
    l.foldl c_sub a = a - l.sum := by
  induction l generalizing a with
  | nil => simp
  | cons y ys IH => rw [List.foldl_cons, IH, c_sub_eq_sub, List.sum_cons, sub_sub]

lemma evenBinSum_cons_cons (x y : ℝ × ℝ) (rest : List (ℝ × ℝ)) :
    evenBinSum (x :: y :: rest) = x + evenBinSum rest := by
  rw [evenBinSum, evenBinSum]
  rw [show (x :: y :: rest).length = rest.length + 1 + 1 from rfl]
  rw [Finset.sum_range_succ', Finset.sum_range_succ']
  have hcongr : ∀ i ∈ Finset.range rest.length,
      (if (i + 1 + 1) % 2 = 0 then (x :: y :: rest).getD (i + 1 + 1) (0, 0) else 0)
        = (if i % 2 = 0 then rest.getD i (0, 0) else 0) := by
    intro i _
    have hmod : (i + 1 + 1) % 2 = i % 2 := by omega
    rw [hmod, List.getD_cons_succ, List.getD_cons_succ]
  rw [Finset.sum_congr rfl hcongr]
  simp [add_comm]

lemma oddBinSum_eq_evenBinSum_tail (l : List (ℝ × ℝ)) :
    oddBinSum l = evenBinSum (l.drop 1) := by
  cases l with
  | nil => simp [oddBinSum, evenBinSum]
  | cons x t =>
    rw [oddBinSum, evenBinSum]
    rw [show (x :: t).length = t.length + 1 from rfl]
    rw [Finset.sum_range_succ']
    have hcongr : ∀ i ∈ Finset.range t.length,
        (if (i + 1) % 2 = 1 then (x :: t).getD (i + 1) (0, 0) else 0)
          = (if i % 2 = 0 then t.getD i (0, 0) else 0) := by
      intro i _
      rw [List.getD_cons_succ]
      by_cases h : i % 2 = 0
      · rw [if_pos (by omega), if_pos h]
      · rw [if_neg (by omega), if_neg h]
    rw [Finset.sum_congr rfl hcongr]
    simp

lemma sum_stepBy2 (l : List (ℝ × ℝ)) : (stepBy2 l).sum = evenBinSum l := by
  induction l using stepBy2.induct with
  | case1 => simp [stepBy2, evenBinSum]
  | case2 x => simp [stepBy2, evenBinSum]
  | case3 x y rest IH =>
    rw [show stepBy2 (x :: y :: rest) = x :: stepBy2 rest from rfl,
      List.sum_cons, IH, evenBinSum_cons_cons]

/-- Claim C3: `inverse_dft` is a pure stateless reduction; on every non-empty
frame it evaluates, with no failure, to the real part of (sum of bins at even
indices minus sum of bins at odd indices) divided by the frame length `N`. -/
theorem claim_C3_inverse_dft (frame : List (ℝ × ℝ)) (h : frame ≠ []) :
    inverse_dft frame
      = (evenBinSum frame - oddBinSum frame).1 / (frame.length : ℝ) := by
  have hdef : inverse_dft frame
      = ((stepBy2 (frame.drop 1)).foldl c_sub
          ((stepBy2 frame).foldl c_add (0, 0))).1 / (frame.length : ℝ) := rfl
  rw [hdef, foldl_c_add, foldl_c_sub, sum_stepBy2, sum_stepBy2,
    ← oddBinSum_eq_evenBinSum_tail,
    show ((0, 0) : ℝ × ℝ) = 0 from rfl, zero_add]

theorem claim_C3_inverse_dft_witness :
    inverse_dft [(1, 2), (3, 4), (5, 6)]
      = (evenBinSum [(1, 2), (3, 4), (5, 6)]
          - oddBinSum [(1, 2), (3, 4), (5, 6)]).1
        / (([(1, 2), (3, 4), (5, 6)] : List (ℝ × ℝ)).length : ℝ) :=
  claim_C3_inverse_dft [(1, 2), (3, 4), (5, 6)] (by simp)

theorem claim_C10_frame_bins_witness :
    (SlidingDft.new.step 0).isSome = true ∧
    (SlidingDft.new.step 0).map (fun p => p.1.length) = some 2048 ∧
    (∀ k : Fin 2048, SlidingDft.new.size ≤ (k : Nat) →
      (SlidingDft.new.step 0).map (fun p => p.2.frame_buf k)
        = some (SlidingDft.new.frame_buf k)) ∧
    SlidingDft.new.size = 256 ∧
    (∀ k : Fin 2048, SlidingDft.new.frame_buf k = (0, 0)) :=
  claim_C10_frame_bins SlidingDft.new 0 (by decide) (by decide)

end DspLab